import Mathlib

/-!
Shallow embedding of the multi-source confidence scoring engine of
`Backend/validation/confidence/confidence.py`, together with theorems
checking the specification's statements about it.

Modelling conventions:
* Python `float` arithmetic is modelled over `ℚ`.
* A Python record (`dict` of optional string fields) is a function
  `String → Option String`; `None` and `""` are both "blank" (falsy).
* The `method_results` dict is an association list keyed by method name.
* The two rapidfuzz token ratios (`fuzz.token_set_ratio`,
  `fuzz.token_sort_ratio`) are opaque third-party functions; the engine is
  parameterized over them (`tset`, `tsort`), so every theorem quantifying
  over them holds for any behaviour of the library.  `fuzz.ratio`, whose
  output shape one claim depends on, is modelled concretely as the
  documented normalized indel similarity.
-/

namespace ValidateMD

/-- Python truthiness test `not v` for an optional string: `None` or `""`. -/
def isBlank : Option String → Bool
  | none => true
  | some s => s == ""

/-- Python `"".join(ch for ch in s if ch.isdigit())`. -/
def digitsOf (s : String) : String :=
  String.mk (s.data.filter Char.isDigit)

/-- Length of a longest common subsequence of two character lists. -/
def lcsLen : List Char → List Char → Nat
  | [], _ => 0
  | _ :: _, [] => 0
  | a :: as, b :: bs =>
    if a = b then lcsLen as bs + 1
    else max (lcsLen (a :: as) bs) (lcsLen as (b :: bs))
termination_by l1 l2 => l1.length + l2.length

/-- Model of rapidfuzz `fuzz.ratio`: the normalized indel similarity
`100 * (|a| + |b| - indelDistance a b) / (|a| + |b|) = 200 * lcs / (|a| + |b|)`;
two empty strings compare as `100`. -/
def fuzzRatioVal (a b : String) : ℚ :=
  if a.length + b.length = 0 then 100
  else 200 * (lcsLen a.data b.data : ℚ) / ((a.length : ℚ) + (b.length : ℚ))

/-- Round to the nearest integer, ties to even (Python `round` on exact values). -/
def roundHalfEven (q : ℚ) : ℤ :=
  let f := ⌊q⌋
  if q - f < 1 / 2 then f
  else if 1 / 2 < q - f then f + 1
  else if f % 2 = 0 then f else f + 1

/-- Python `round(x, 2)`. -/
def round2 (q : ℚ) : ℚ := (roundHalfEven (100 * q) : ℚ) / 100

/-- Source `FIELD_WEIGHTS.get(f, 0.0)`: module-level field importance table. -/
def FIELD_WEIGHTS : String → ℚ := fun f =>
  if f = "npi" then 30 / 100
  else if f = "name" then 25 / 100
  else if f = "address" then 20 / 100
  else if f = "phone" then 15 / 100
  else if f = "specialty" then 10 / 100
  else 0

/-- Source `list(FIELD_WEIGHTS.keys())`. -/
def FIELD_KEYS : List String := ["npi", "name", "address", "phone", "specialty"]

/-- Source `METHOD_WEIGHTS.get(m, 0.0)`: module-level method reliability table. -/
def METHOD_WEIGHTS : String → ℚ := fun m =>
  if m = "npi_registry" then 45 / 100
  else if m = "web_scrape" then 30 / 100
  else if m = "google_maps" then 25 / 100
  else 0

/-- Source constant `PHONE_EXACT_BONUS = 10`. -/
def PHONE_EXACT_BONUS : ℚ := 10

/-- Source `name_similarity`, with `fuzz.token_set_ratio` passed as `tset`. -/
def name_similarity (tset : String → String → ℚ) : Option String → Option String → ℚ
  | some a, some b => if a = "" ∨ b = "" then 0 else tset a b
  | _, _ => 0

/-- Source `address_similarity`, with `fuzz.token_set_ratio` passed as `tset`. -/
def address_similarity (tset : String → String → ℚ) : Option String → Option String → ℚ
  | some a, some b => if a = "" ∨ b = "" then 0 else tset a b
  | _, _ => 0

/-- Source `specialty_similarity`, with `fuzz.token_sort_ratio` passed as `tsort`. -/
def specialty_similarity (tsort : String → String → ℚ) : Option String → Option String → ℚ
  | some a, some b =>
    if a = "" ∨ b = "" then 0
    else
      let ac := a.toLower.trim
      let bc := b.toLower.trim
      if ac = bc then 100 else tsort ac bc
  | _, _ => 0

/-- Source `phone_similarity`. -/
def phone_similarity : Option String → Option String → ℚ
  | some a, some b =>
    if a = "" ∨ b = "" then 0
    else
      let da := digitsOf a
      let db := digitsOf b
      if da = "" ∨ db = "" then 0
      else if da = db then min 100 (100 + PHONE_EXACT_BONUS)
      else fuzzRatioVal da db
  | _, _ => 0

/-- Source `npi_similarity`. -/
def npi_similarity : Option String → Option String → ℚ
  | some a, some b =>
    if a = "" ∨ b = "" then 0
    else
      let da := digitsOf a
      let db := digitsOf b
      if da ≠ "" ∧ db ≠ "" ∧ da = db then 100 else 0
  | _, _ => 0

/-- The dispatch part of `field_confidence_for_method`, before the clamp. -/
def rawFieldSimilarity (tset tsort : String → String → ℚ) (field : String)
    (a b : Option String) : ℚ :=
  if field = "name" then name_similarity tset a b
  else if field = "address" then address_similarity tset a b
  else if field = "specialty" then specialty_similarity tsort a b
  else if field = "phone" then phone_similarity a b
  else if field = "npi" then npi_similarity a b
  else 0

/-- Source `field_confidence_for_method`: dispatch, then `max(0.0, min(100.0, s))`. -/
def field_confidence_for_method (tset tsort : String → String → ℚ) (field : String)
    (a b : Option String) : ℚ :=
  max 0 (min 100 (rawFieldSimilarity tset tsort field a b))

/-- Python `d[f]` on an association list built over known keys (default 0). -/
def lookup0 (l : List (String × ℚ)) (f : String) : ℚ := (l.lookup f).getD 0

/-- Source `compute_method_score` (the unused `method_name` argument is dropped):
returns `(round(method_score, 2), breakdown)`. -/
def compute_method_score (tset tsort : String → String → ℚ)
    (extracted method_result : String → Option String) (fields : List String) :
    ℚ × List (String × ℚ) :=
  let conf := fun f => field_confidence_for_method tset tsort f (extracted f) (method_result f)
  let breakdown := fields.map fun f => (f, round2 (conf f))
  let weighted_sum := (fields.map fun f => conf f * FIELD_WEIGHTS f).sum
  let weight_total := (fields.map fun f => FIELD_WEIGHTS f).sum
  let method_score := if 0 < weight_total then weighted_sum / weight_total else 0
  (round2 method_score, breakdown)

/-- Source `compute_combined_field_confidences`: returns `(combined, per_method_field)`. -/
def compute_combined_field_confidences (tset tsort : String → String → ℚ)
    (extracted : String → Option String)
    (method_results : List (String × (String → Option String)))
    (method_weights : String → ℚ) :
    List (String × ℚ) × List (String × List (String × ℚ)) :=
  let per_method_field := method_results.map fun p =>
    (p.1, FIELD_KEYS.map fun f =>
      (f, field_confidence_for_method tset tsort f (extracted f) (p.2 f)))
  let combined := FIELD_KEYS.map fun f =>
    let num := (per_method_field.map fun q => lookup0 q.2 f * method_weights q.1).sum
    let den := (per_method_field.map fun q => method_weights q.1).sum
    (f, round2 (if den ≠ 0 then num / den else 0))
  (combined, per_method_field)

/-- Source `compute_overall_confidence`. -/
def compute_overall_confidence (combined_field_confidences : List (String × ℚ))
    (field_weights : String → ℚ) : ℚ :=
  let num := (combined_field_confidences.map fun p => p.2 * field_weights p.1).sum
  let den := (combined_field_confidences.map fun p => field_weights p.1).sum
  round2 (if den ≠ 0 then num / den else 0)

/-- The cross-method combination as §4.3 step 2 of the spec words it: for each
field, the weighted average over only those methods that supplied a non-null
value for that field, silent methods excluded from numerator and denominator. -/
def combinedFieldConfidencesSpec (tset tsort : String → String → ℚ)
    (extracted : String → Option String)
    (method_results : List (String × (String → Option String)))
    (method_weights : String → ℚ) : List (String × ℚ) :=
  FIELD_KEYS.map fun f =>
    let reporting := method_results.filter fun p => !(isBlank (p.2 f))
    let num := (reporting.map fun p =>
      field_confidence_for_method tset tsort f (extracted f) (p.2 f) * method_weights p.1).sum
    let den := (reporting.map fun p => method_weights p.1).sum
    (f, round2 (if den ≠ 0 then num / den else 0))

/-- Method scoring against an arbitrary field-weight table (the body of
`compute_method_score` with the table abstracted), used to state the spec's
re-normalization scenario. -/
def methodScoreWith (w : String → ℚ) (conf : String → ℚ) (fields : List String) : ℚ :=
  let weighted_sum := (fields.map fun f => conf f * w f).sum
  let weight_total := (fields.map fun f => w f).sum
  if 0 < weight_total then weighted_sum / weight_total else 0

/-- A rational with at most two decimal places. -/
def isCenti (q : ℚ) : Prop := ∃ n : ℤ, q = (n : ℚ) / 100

/-! ### Helper lemmas about rounding -/

lemma roundHalfEven_nonneg {q : ℚ} (hq : 0 ≤ q) : 0 ≤ roundHalfEven q := by
  have h0 : (0 : ℤ) ≤ ⌊q⌋ := Int.floor_nonneg.mpr hq
  simp only [roundHalfEven]
  split
  · exact h0
  · split
    · omega
    · split <;> omega

lemma roundHalfEven_le {q : ℚ} {B : ℤ} (h : q ≤ B) : roundHalfEven q ≤ B := by
  have hfB : ⌊q⌋ ≤ B := by
    have h1 : ⌊q⌋ ≤ ⌊(B : ℚ)⌋ := Int.floor_le_floor h
    simpa using h1
  simp only [roundHalfEven]
  by_cases h1 : q - (⌊q⌋ : ℚ) < 1 / 2
  · rw [if_pos h1]; exact hfB
  · rw [if_neg h1]
    have hlt : (⌊q⌋ : ℚ) < q := by
      have h2 : (1 : ℚ) / 2 ≤ q - ⌊q⌋ := not_lt.mp h1
      linarith
    have hB : ⌊q⌋ < B := by
      have h3 : (⌊q⌋ : ℚ) < (B : ℚ) := lt_of_lt_of_le hlt h
      exact_mod_cast h3
    split
    · omega
    · split <;> omega

lemma round2_nonneg {q : ℚ} (h : 0 ≤ q) : 0 ≤ round2 q := by
  have h1 : (0 : ℤ) ≤ roundHalfEven (100 * q) := roundHalfEven_nonneg (by linarith)
  have h2 : (0 : ℚ) ≤ (roundHalfEven (100 * q) : ℚ) := by exact_mod_cast h1
  exact div_nonneg h2 (by norm_num)

lemma round2_le_100 {q : ℚ} (h : q ≤ 100) : round2 q ≤ 100 := by
  have h1 : roundHalfEven (100 * q) ≤ (10000 : ℤ) := by
    have : 100 * q ≤ ((10000 : ℤ) : ℚ) := by push_cast; linarith
    exact roundHalfEven_le this
  have h2 : (roundHalfEven (100 * q) : ℚ) ≤ 10000 := by exact_mod_cast h1
  rw [round2, div_le_iff₀ (by norm_num : (0 : ℚ) < 100)]
  linarith

lemma round2_intCast (n : ℤ) : round2 (n : ℚ) = n := by
  have h : (100 : ℚ) * n = ((100 * n : ℤ) : ℚ) := by push_cast; ring
  simp only [round2, roundHalfEven, h, Int.floor_intCast, sub_self]
  rw [if_pos (by norm_num)]
  push_cast
  ring

lemma round2_zero : round2 0 = 0 := by
  simpa using round2_intCast 0

lemma isCenti_round2 (q : ℚ) : isCenti (round2 q) :=
  ⟨roundHalfEven (100 * q), rfl⟩

/-! ### Helper lemmas about `lcsLen` and `fuzzRatioVal` -/

lemma lcsLen_le_left : ∀ xs ys : List Char, lcsLen xs ys ≤ xs.length := by
  intro xs ys
  induction xs, ys using lcsLen.induct <;> simp_all [lcsLen] <;> omega

lemma lcsLen_le_right : ∀ xs ys : List Char, lcsLen xs ys ≤ ys.length := by
  intro xs ys
  induction xs, ys using lcsLen.induct <;> simp_all [lcsLen] <;> omega

lemma fuzzRatioVal_nonneg (a b : String) : 0 ≤ fuzzRatioVal a b := by
  unfold fuzzRatioVal
  split
  · norm_num
  · apply div_nonneg
    · positivity
    · positivity

lemma fuzzRatioVal_le_100 (a b : String) : fuzzRatioVal a b ≤ 100 := by
  unfold fuzzRatioVal
  split
  · norm_num
  · rename_i hne
    have hla : lcsLen a.data b.data ≤ a.length := lcsLen_le_left a.data b.data
    have hlb : lcsLen a.data b.data ≤ b.length := lcsLen_le_right a.data b.data
    have hpos : 0 < (a.length : ℚ) + (b.length : ℚ) := by
      have : 0 < a.length + b.length := Nat.pos_of_ne_zero hne
      exact_mod_cast this
    rw [div_le_iff₀ hpos]
    have h2 : 2 * lcsLen a.data b.data ≤ a.length + b.length := by omega
    have h2q : (2 : ℚ) * (lcsLen a.data b.data : ℚ) ≤ (a.length : ℚ) + (b.length : ℚ) := by
      exact_mod_cast h2
    linarith

/-! ### List helper lemmas -/

lemma sum_map_nonneg {α : Type} (l : List α) (g : α → ℚ) (h : ∀ a ∈ l, 0 ≤ g a) :
    0 ≤ (l.map g).sum := by
  induction l with
  | nil => simp
  | cons a t ih =>
    simp only [List.map_cons, List.sum_cons]
    have h1 := h a (by simp)
    have h2 := ih fun x hx => h x (by simp [hx])
    linarith

lemma sum_map_le_sum_map {α : Type} (l : List α) (g₁ g₂ : α → ℚ)
    (h : ∀ a ∈ l, g₁ a ≤ g₂ a) : (l.map g₁).sum ≤ (l.map g₂).sum := by
  induction l with
  | nil => simp
  | cons a t ih =>
    simp only [List.map_cons, List.sum_cons]
    have h1 := h a (by simp)
    have h2 := ih fun x hx => h x (by simp [hx])
    linarith

lemma sum_map_mulRight {α : Type} (l : List α) (g : α → ℚ) (r : ℚ) :
    (l.map fun a => g a * r).sum = (l.map g).sum * r := by
  induction l with
  | nil => simp
  | cons a t ih => simp [ih, add_mul]

lemma lookup_map_self (g : String → ℚ) (f : String) :
    ∀ l : List String, f ∈ l → (l.map fun x => (x, g x)).lookup f = some (g f) := by
  intro l hl
  induction l with
  | nil => cases hl
  | cons x t ih =>
    simp only [List.map_cons, List.lookup]
    by_cases hx : f = x
    · subst hx
      simp
    · have hb : (f == x) = false := by simp [hx]
      rw [hb]
      exact ih ((List.mem_cons.mp hl).resolve_left hx)

lemma lookup0_map_self (g : String → ℚ) (f : String) (l : List String) (hf : f ∈ l) :
    lookup0 (l.map fun x => (x, g x)) f = g f := by
  simp [lookup0, lookup_map_self g f l hf]

lemma lookup0_bounds (f : String) (l : List (String × ℚ))
    (h : ∀ p ∈ l, 0 ≤ p.2 ∧ p.2 ≤ 100) : 0 ≤ lookup0 l f ∧ lookup0 l f ≤ 100 := by
  induction l with
  | nil => simp [lookup0, List.lookup]
  | cons p t ih =>
    obtain ⟨k, v⟩ := p
    simp only [lookup0, List.lookup]
    cases hk : (f == k) with
    | true =>
      simpa using h (k, v) (by simp)
    | false =>
      exact ih fun q hq => h q (by simp [hq])

/-- Bounds of the guarded division `(num / den) if den else 0.0`. -/
lemma guarded_div_bounds {num den : ℚ} (hnum0 : 0 ≤ num) (hnum1 : num ≤ 100 * den)
    (hden : 0 ≤ den) :
    0 ≤ (if den ≠ 0 then num / den else 0) ∧ (if den ≠ 0 then num / den else 0) ≤ 100 := by
  by_cases h : den = 0
  · simp [h]
  · have hpos : 0 < den := lt_of_le_of_ne hden (Ne.symm h)
    rw [if_pos h]
    exact ⟨div_nonneg hnum0 hden, by rw [div_le_iff₀ hpos]; linarith⟩

/-- Bounds of the guarded division `(num / den) if den > 0 else 0.0`. -/
lemma guarded_div_pos_bounds {num den : ℚ} (hnum0 : 0 ≤ num) (hnum1 : num ≤ 100 * den) :
    0 ≤ (if 0 < den then num / den else 0) ∧ (if 0 < den then num / den else 0) ≤ 100 := by
  by_cases h : 0 < den
  · rw [if_pos h]
    exact ⟨div_nonneg hnum0 h.le, by rw [div_le_iff₀ h]; linarith⟩
  · simp [h]

/-! ### Helper lemmas about the similarity functions -/

lemma FIELD_WEIGHTS_nonneg (f : String) : 0 ≤ FIELD_WEIGHTS f := by
  unfold FIELD_WEIGHTS
  split_ifs <;> norm_num

lemma METHOD_WEIGHTS_nonneg (m : String) : 0 ≤ METHOD_WEIGHTS m := by
  unfold METHOD_WEIGHTS
  split_ifs <;> norm_num

lemma field_confidence_nonneg (tset tsort : String → String → ℚ) (field : String)
    (a b : Option String) : 0 ≤ field_confidence_for_method tset tsort field a b :=
  le_max_left 0 _

lemma field_confidence_le_100 (tset tsort : String → String → ℚ) (field : String)
    (a b : Option String) : field_confidence_for_method tset tsort field a b ≤ 100 :=
  max_le (by norm_num) (min_le_left _ _)

lemma rawFieldSimilarity_blank_left (tset tsort : String → String → ℚ) (field : String)
    (a b : Option String) (ha : isBlank a = true) :
    rawFieldSimilarity tset tsort field a b = 0 := by
  cases a with
  | none =>
    cases b <;>
      simp [rawFieldSimilarity, name_similarity, address_similarity, specialty_similarity,
        phone_similarity, npi_similarity]
  | some s =>
    have hs : s = "" := by simpa [isBlank] using ha
    subst hs
    cases b <;>
      simp [rawFieldSimilarity, name_similarity, address_similarity, specialty_similarity,
        phone_similarity, npi_similarity]

lemma rawFieldSimilarity_blank_right (tset tsort : String → String → ℚ) (field : String)
    (a b : Option String) (hb : isBlank b = true) :
    rawFieldSimilarity tset tsort field a b = 0 := by
  cases b with
  | none =>
    cases a <;>
      simp [rawFieldSimilarity, name_similarity, address_similarity, specialty_similarity,
        phone_similarity, npi_similarity]
  | some s =>
    have hs : s = "" := by simpa [isBlank] using hb
    subst hs
    cases a <;>
      simp [rawFieldSimilarity, name_similarity, address_similarity, specialty_similarity,
        phone_similarity, npi_similarity]

lemma field_confidence_blank_left (tset tsort : String → String → ℚ) (field : String)
    (a b : Option String) (ha : isBlank a = true) :
    field_confidence_for_method tset tsort field a b = 0 := by
  simp [field_confidence_for_method, rawFieldSimilarity_blank_left tset tsort field a b ha]

lemma field_confidence_blank_right (tset tsort : String → String → ℚ) (field : String)
    (a b : Option String) (hb : isBlank b = true) :
    field_confidence_for_method tset tsort field a b = 0 := by
  simp [field_confidence_for_method, rawFieldSimilarity_blank_right tset tsort field a b hb]

/-! ### Claim theorems -/

/-- C4: for every tracked field (indeed every field name) and every value,
comparing a null/empty claimed value against the value returns 0, and
comparing the value against a null/empty observed value returns 0 — a missing
value on either side always yields similarity 0. -/
theorem c4_missing_value_floor (tset tsort : String → String → ℚ) (field : String)
    (a b v : Option String) (ha : isBlank a = true) (hb : isBlank b = true) :
    field_confidence_for_method tset tsort field a v = 0 ∧
    field_confidence_for_method tset tsort field v b = 0 :=
  ⟨field_confidence_blank_left _ _ _ _ _ ha, field_confidence_blank_right _ _ _ _ _ hb⟩

theorem c4_missing_value_floor_witness :
    (isBlank (none : Option String) = true ∧ isBlank (some "") = true) ∧
    (field_confidence_for_method (fun _ _ => 0) (fun _ _ => 0) "name" none (some "x") = 0 ∧
      field_confidence_for_method (fun _ _ => 0) (fun _ _ => 0) "name" (some "x") (some "") = 0) :=
  ⟨⟨by decide, by decide⟩,
    c4_missing_value_floor (fun _ _ => 0) (fun _ _ => 0) "name" none (some "") (some "x")
      (by decide) (by decide)⟩

/-- C5: `npi_similarity` strips non-digit characters from both sides and
returns exactly 100 when the digit strings are equal and non-empty, exactly 0
in every other case — it never takes a value strictly between 0 and 100. -/
theorem c5_npi_exact_or_nothing (a b : Option String) (sa sb : String) :
    (npi_similarity a b = 100 ∨ npi_similarity a b = 0) ∧
    npi_similarity (some sa) (some sb) =
      (if digitsOf sa ≠ "" ∧ digitsOf sa = digitsOf sb then 100 else 0) := by
  constructor
  · cases a with
    | none => right; cases b <;> rfl
    | some s =>
      cases b with
      | none => right; rfl
      | some t =>
        simp only [npi_similarity]
        split_ifs <;> simp
  · simp only [npi_similarity]
    by_cases hsa : sa = ""
    · subst hsa
      have h0 : digitsOf "" = "" := rfl
      simp [h0]
    · by_cases hsb : sb = ""
      · subst hsb
        have h0 : digitsOf "" = "" := rfl
        rw [if_pos (Or.inr rfl), if_neg]
        rw [h0]
        tauto
      · rw [if_neg (by tauto)]
        by_cases h2 : digitsOf sa ≠ "" ∧ digitsOf sa = digitsOf sb
        · rw [if_pos h2, if_pos ⟨h2.1, by rw [← h2.2]; exact h2.1, h2.2⟩]
        · rw [if_neg h2, if_neg fun h3 => h2 ⟨h3.1, h3.2.2⟩]

/-- C3: for strings whose digit-only normalizations are non-empty: equal digit
strings give exactly 100 (the exact-match bonus is capped and never pushes the
result above 100); unequal digit strings give the edit-distance-based
similarity over the digit strings, which lies in `[0, 100]`. -/
theorem c3_phone_similarity (a b : String) (ha : digitsOf a ≠ "") (hb : digitsOf b ≠ "") :
    (digitsOf a = digitsOf b → phone_similarity (some a) (some b) = 100) ∧
    (digitsOf a ≠ digitsOf b →
      phone_similarity (some a) (some b) = fuzzRatioVal (digitsOf a) (digitsOf b) ∧
      0 ≤ fuzzRatioVal (digitsOf a) (digitsOf b) ∧
      fuzzRatioVal (digitsOf a) (digitsOf b) ≤ 100) := by
  have hane : a ≠ "" := fun h => ha (by rw [h]; rfl)
  have hbne : b ≠ "" := fun h => hb (by rw [h]; rfl)
  constructor
  · intro heq
    simp only [phone_similarity]
    rw [if_neg (by tauto), if_neg (by tauto), if_pos heq]
    norm_num [PHONE_EXACT_BONUS, min_def]
  · intro hne
    simp only [phone_similarity]
    rw [if_neg (by tauto), if_neg (by tauto), if_neg hne]
    exact ⟨rfl, fuzzRatioVal_nonneg _ _, fuzzRatioVal_le_100 _ _⟩

theorem c3_phone_similarity_witness :
    (digitsOf "(303) 493-7000" ≠ "" ∧ digitsOf "303-493-7000" ≠ "" ∧
      digitsOf "(303) 493-7000" = digitsOf "303-493-7000") ∧
    phone_similarity (some "(303) 493-7000") (some "303-493-7000") = 100 :=
  ⟨⟨by decide, by decide, by decide⟩,
    (c3_phone_similarity "(303) 493-7000" "303-493-7000" (by decide) (by decide)).1 (by decide)⟩

/-! ### Weighted-average bounds -/

lemma sum_map_mulLeft {α : Type} (l : List α) (g : α → ℚ) (r : ℚ) :
    (l.map fun a => r * g a).sum = r * (l.map g).sum := by
  induction l with
  | nil => simp
  | cons a t ih => simp [ih, mul_add]

lemma weighted_num_bounds {α : Type} (l : List α) (v w : α → ℚ)
    (hv : ∀ a ∈ l, 0 ≤ v a ∧ v a ≤ 100) (hw : ∀ a ∈ l, 0 ≤ w a) :
    0 ≤ (l.map fun a => v a * w a).sum ∧
    (l.map fun a => v a * w a).sum ≤ 100 * (l.map w).sum := by
  constructor
  · exact sum_map_nonneg _ _ fun a ha => mul_nonneg (hv a ha).1 (hw a ha)
  · calc (l.map fun a => v a * w a).sum
        ≤ (l.map fun a => 100 * w a).sum :=
          sum_map_le_sum_map _ _ _ fun a ha =>
            mul_le_mul_of_nonneg_right (hv a ha).2 (hw a ha)
      _ = 100 * (l.map w).sum := sum_map_mulLeft _ _ _

lemma weighted_avg_bounds {α : Type} (l : List α) (v w : α → ℚ)
    (hv : ∀ a ∈ l, 0 ≤ v a ∧ v a ≤ 100) (hw : ∀ a ∈ l, 0 ≤ w a) :
    0 ≤ (if (l.map w).sum ≠ 0 then (l.map fun a => v a * w a).sum / (l.map w).sum else 0) ∧
    (if (l.map w).sum ≠ 0 then (l.map fun a => v a * w a).sum / (l.map w).sum else 0) ≤ 100 := by
  obtain ⟨h0, h1⟩ := weighted_num_bounds l v w hv hw
  exact guarded_div_bounds h0 h1 (sum_map_nonneg _ _ hw)

lemma weighted_avg_pos_bounds {α : Type} (l : List α) (v w : α → ℚ)
    (hv : ∀ a ∈ l, 0 ≤ v a ∧ v a ≤ 100) (hw : ∀ a ∈ l, 0 ≤ w a) :
    0 ≤ (if 0 < (l.map w).sum then (l.map fun a => v a * w a).sum / (l.map w).sum else 0) ∧
    (if 0 < (l.map w).sum then (l.map fun a => v a * w a).sum / (l.map w).sum else 0) ≤ 100 := by
  obtain ⟨h0, h1⟩ := weighted_num_bounds l v w hv hw
  exact guarded_div_pos_bounds h0 h1

/-- C2: the comparator clamps its result to `[0,100]` before returning, and for
every non-negative weight table every method score, combined field confidence
and overall confidence lies in `[0,100]` — whatever the two token-ratio
library functions return. -/
theorem c2_boundedness (tset tsort : String → String → ℚ) (field : String)
    (a b : Option String) (extracted mres : String → Option String)
    (fields : List String) (mrs : List (String × (String → Option String)))
    (mw fw : String → ℚ) (hmw : ∀ m, 0 ≤ mw m) (hfw : ∀ g, 0 ≤ fw g) :
    (field_confidence_for_method tset tsort field a b =
        max 0 (min 100 (rawFieldSimilarity tset tsort field a b)) ∧
      0 ≤ field_confidence_for_method tset tsort field a b ∧
      field_confidence_for_method tset tsort field a b ≤ 100) ∧
    (0 ≤ (compute_method_score tset tsort extracted mres fields).1 ∧
      (compute_method_score tset tsort extracted mres fields).1 ≤ 100) ∧
    (∀ p ∈ (compute_combined_field_confidences tset tsort extracted mrs mw).1,
      0 ≤ p.2 ∧ p.2 ≤ 100) ∧
    (0 ≤ compute_overall_confidence
        (compute_combined_field_confidences tset tsort extracted mrs mw).1 fw ∧
      compute_overall_confidence
        (compute_combined_field_confidences tset tsort extracted mrs mw).1 fw ≤ 100) := by
  have hcomb : ∀ p ∈ (compute_combined_field_confidences tset tsort extracted mrs mw).1,
      0 ≤ p.2 ∧ p.2 ≤ 100 := by
    intro p hp
    simp only [compute_combined_field_confidences, List.mem_map] at hp
    obtain ⟨f, _, rfl⟩ := hp
    have hb := weighted_avg_bounds
      (mrs.map fun p => (p.1, FIELD_KEYS.map fun f' =>
        (f', field_confidence_for_method tset tsort f' (extracted f') (p.2 f'))))
      (fun q => lookup0 q.2 f) (fun q => mw q.1)
      (fun q hq => by
        apply lookup0_bounds
        intro r hr
        simp only [List.mem_map] at hq
        obtain ⟨p', _, rfl⟩ := hq
        simp only [List.mem_map] at hr
        obtain ⟨f', _, rfl⟩ := hr
        exact ⟨field_confidence_nonneg _ _ _ _ _, field_confidence_le_100 _ _ _ _ _⟩)
      (fun q _ => hmw q.1)
    exact ⟨round2_nonneg hb.1, round2_le_100 hb.2⟩
  refine ⟨⟨rfl, field_confidence_nonneg _ _ _ _ _, field_confidence_le_100 _ _ _ _ _⟩,
    ?_, hcomb, ?_⟩
  · have hb := weighted_avg_pos_bounds fields
      (fun f => field_confidence_for_method tset tsort f (extracted f) (mres f))
      (fun f => FIELD_WEIGHTS f)
      (fun f _ => ⟨field_confidence_nonneg _ _ _ _ _, field_confidence_le_100 _ _ _ _ _⟩)
      (fun f _ => FIELD_WEIGHTS_nonneg f)
    exact ⟨round2_nonneg hb.1, round2_le_100 hb.2⟩
  · have hb := weighted_avg_bounds
      (compute_combined_field_confidences tset tsort extracted mrs mw).1
      (fun p => p.2) (fun p => fw p.1) hcomb (fun p _ => hfw p.1)
    exact ⟨round2_nonneg hb.1, round2_le_100 hb.2⟩

theorem c2_boundedness_witness :
    ((∀ m, 0 ≤ METHOD_WEIGHTS m) ∧ (∀ g, 0 ≤ FIELD_WEIGHTS g)) ∧
    (0 ≤ (compute_method_score (fun _ _ => 0) (fun _ _ => 0) (fun _ => none) (fun _ => none)
        FIELD_KEYS).1 ∧
      (compute_method_score (fun _ _ => 0) (fun _ _ => 0) (fun _ => none) (fun _ => none)
        FIELD_KEYS).1 ≤ 100) ∧
    (0 ≤ compute_overall_confidence
        (compute_combined_field_confidences (fun _ _ => 0) (fun _ _ => 0) (fun _ => none) []
          METHOD_WEIGHTS).1 FIELD_WEIGHTS ∧
      compute_overall_confidence
        (compute_combined_field_confidences (fun _ _ => 0) (fun _ _ => 0) (fun _ => none) []
          METHOD_WEIGHTS).1 FIELD_WEIGHTS ≤ 100) := by
  have h := c2_boundedness (fun _ _ => 0) (fun _ _ => 0) "name" none none
    (fun _ => none) (fun _ => none) FIELD_KEYS [] METHOD_WEIGHTS FIELD_WEIGHTS
    METHOD_WEIGHTS_nonneg FIELD_WEIGHTS_nonneg
  exact ⟨⟨METHOD_WEIGHTS_nonneg, FIELD_WEIGHTS_nonneg⟩, h.2.1, h.2.2.2⟩

/-- C6: with an empty `methodResults` mapping the aggregator returns (without
any fault) a combined confidence of 0 for every tracked field, and the overall
confidence computed from those combined values is 0, for every weight table. -/
theorem c6_empty_method_results (tset tsort : String → String → ℚ)
    (extracted : String → Option String) (mw fw : String → ℚ) :
    (compute_combined_field_confidences tset tsort extracted [] mw).1 =
      FIELD_KEYS.map (fun f => (f, 0)) ∧
    compute_overall_confidence
      (compute_combined_field_confidences tset tsort extracted [] mw).1 fw = 0 := by
  have h1 : (compute_combined_field_confidences tset tsort extracted [] mw).1 =
      FIELD_KEYS.map (fun f => (f, 0)) := by
    simp [compute_combined_field_confidences, round2_zero]
  refine ⟨h1, ?_⟩
  rw [h1]
  simp [compute_overall_confidence, FIELD_KEYS, round2_zero]

/-- C7: the method score is the weighted average of the comparator scores over
the fields actually scored, normalized by the sum of the weights present for
exactly those fields; an empty field list or a zero weight sum gives score 0;
scoring a subset equals scoring with the weight table re-normalized over that
subset; and a field absent from the weight table contributes weight 0 to both
numerator and denominator. -/
theorem c7_method_score_normalization (tset tsort : String → String → ℚ)
    (extracted mres : String → Option String) (fields : List String) (g : String) :
    ((compute_method_score tset tsort extracted mres fields).1 =
      round2 (methodScoreWith FIELD_WEIGHTS
        (fun f => field_confidence_for_method tset tsort f (extracted f) (mres f)) fields)) ∧
    (compute_method_score tset tsort extracted mres []).1 = 0 ∧
    ((fields.map fun f => FIELD_WEIGHTS f).sum = 0 →
      (compute_method_score tset tsort extracted mres fields).1 = 0) ∧
    (0 < (fields.map fun f => FIELD_WEIGHTS f).sum →
      methodScoreWith FIELD_WEIGHTS
          (fun f => field_confidence_for_method tset tsort f (extracted f) (mres f)) fields =
        methodScoreWith
          (fun f' => FIELD_WEIGHTS f' / (fields.map fun f => FIELD_WEIGHTS f).sum)
          (fun f => field_confidence_for_method tset tsort f (extracted f) (mres f)) fields) ∧
    (g ∉ FIELD_KEYS → FIELD_WEIGHTS g = 0 ∧
      (compute_method_score tset tsort extracted mres (fields ++ [g])).1 =
        (compute_method_score tset tsort extracted mres fields).1) := by
  refine ⟨rfl, ?_, ?_, ?_, ?_⟩
  · simp [compute_method_score, round2_zero]
  · intro h0
    simp only [compute_method_score, h0]
    rw [if_neg (lt_irrefl 0), round2_zero]
  · intro ht
    simp only [methodScoreWith]
    have hwt : (fields.map fun f => FIELD_WEIGHTS f / (fields.map fun f => FIELD_WEIGHTS f).sum).sum = 1 := by
      have h2 : (fields.map fun f => FIELD_WEIGHTS f / (fields.map fun f => FIELD_WEIGHTS f).sum).sum =
          (fields.map fun f => FIELD_WEIGHTS f).sum * ((fields.map fun f => FIELD_WEIGHTS f).sum)⁻¹ := by
        simp only [div_eq_mul_inv]
        rw [sum_map_mulRight]
      rw [h2, mul_inv_cancel₀ (ne_of_gt ht)]
    rw [if_pos ht, hwt, if_pos one_pos, div_one]
    have hnum : (fields.map fun f =>
        field_confidence_for_method tset tsort f (extracted f) (mres f) *
          (FIELD_WEIGHTS f / (fields.map fun f => FIELD_WEIGHTS f).sum)).sum =
        (fields.map fun f =>
          field_confidence_for_method tset tsort f (extracted f) (mres f) *
            FIELD_WEIGHTS f).sum / (fields.map fun f => FIELD_WEIGHTS f).sum := by
      have h3 : (fields.map fun f =>
          field_confidence_for_method tset tsort f (extracted f) (mres f) *
            (FIELD_WEIGHTS f / (fields.map fun f => FIELD_WEIGHTS f).sum)) =
          fields.map fun f =>
            (field_confidence_for_method tset tsort f (extracted f) (mres f) *
              FIELD_WEIGHTS f) * ((fields.map fun f => FIELD_WEIGHTS f).sum)⁻¹ := by
        simp [div_eq_mul_inv, mul_assoc]
      rw [h3, sum_map_mulRight, div_eq_mul_inv]
    rw [hnum]
  · intro hg
    have hw0 : FIELD_WEIGHTS g = 0 := by
      simp only [FIELD_KEYS, List.mem_cons, List.mem_singleton, not_or] at hg
      obtain ⟨h1, h2, h3, h4, h5⟩ := hg
      simp [FIELD_WEIGHTS, h1, h2, h3, h4, h5]
    refine ⟨hw0, ?_⟩
    simp [compute_method_score, hw0]

theorem c7_method_score_normalization_witness :
    (0 < ((["npi", "phone"].map fun f => FIELD_WEIGHTS f).sum) ∧
      "bogus" ∉ FIELD_KEYS) ∧
    (methodScoreWith FIELD_WEIGHTS
        (fun f => field_confidence_for_method (fun _ _ => 0) (fun _ _ => 0) f none none)
        ["npi", "phone"] =
      methodScoreWith
        (fun f' => FIELD_WEIGHTS f' / ((["npi", "phone"].map fun f => FIELD_WEIGHTS f).sum))
        (fun f => field_confidence_for_method (fun _ _ => 0) (fun _ _ => 0) f none none)
        ["npi", "phone"]) ∧
    (FIELD_WEIGHTS "bogus" = 0 ∧
      (compute_method_score (fun _ _ => 0) (fun _ _ => 0) (fun _ => none) (fun _ => none)
        (["npi", "phone"] ++ ["bogus"])).1 =
      (compute_method_score (fun _ _ => 0) (fun _ _ => 0) (fun _ => none) (fun _ => none)
        ["npi", "phone"]).1) := by
  have hpos : 0 < ((["npi", "phone"].map fun f => FIELD_WEIGHTS f).sum) := by
    simp +decide only [FIELD_WEIGHTS, List.map_cons, List.map_nil, List.sum_cons, List.sum_nil]
    norm_num
  have hnm : "bogus" ∉ FIELD_KEYS := by decide
  have h := c7_method_score_normalization (fun _ _ => 0) (fun _ _ => 0)
    (fun _ => none) (fun _ => none) ["npi", "phone"] "bogus"
  exact ⟨⟨hpos, hnm⟩, h.2.2.2.1 hpos, h.2.2.2.2 hnm⟩

/-- C9: the Method Scorer and the Cross-Method Aggregator compute per-field
similarities through the same comparator function: for every method entry, the
aggregator's matrix row holds `field_confidence_for_method` of the same
arguments, and the method breakdown holds exactly the 2-decimal rounding of
that same (unrounded) value. -/
theorem c9_single_comparator (tset tsort : String → String → ℚ)
    (extracted : String → Option String)
    (mrs : List (String × (String → Option String))) (mw : String → ℚ)
    (f : String) (hf : f ∈ FIELD_KEYS) :
    ∀ p ∈ mrs,
      ∃ row ∈ (compute_combined_field_confidences tset tsort extracted mrs mw).2,
        row.1 = p.1 ∧
        lookup0 row.2 f = field_confidence_for_method tset tsort f (extracted f) (p.2 f) ∧
        lookup0 (compute_method_score tset tsort extracted p.2 FIELD_KEYS).2 f =
          round2 (lookup0 row.2 f) := by
  intro p hp
  refine ⟨(p.1, FIELD_KEYS.map fun f' =>
      (f', field_confidence_for_method tset tsort f' (extracted f') (p.2 f'))), ?_, rfl,
    ?_, ?_⟩
  · simp only [compute_combined_field_confidences, List.mem_map]
    exact ⟨p, hp, rfl⟩
  · exact lookup0_map_self
      (fun f' => field_confidence_for_method tset tsort f' (extracted f') (p.2 f'))
      f FIELD_KEYS hf
  · rw [lookup0_map_self
      (fun f' => field_confidence_for_method tset tsort f' (extracted f') (p.2 f'))
      f FIELD_KEYS hf]
    simp only [compute_method_score]
    exact lookup0_map_self
      (fun f' => round2 (field_confidence_for_method tset tsort f' (extracted f') (p.2 f')))
      f FIELD_KEYS hf

theorem c9_single_comparator_witness :
    ("npi" ∈ FIELD_KEYS ∧
      ("m", (fun _ => some "1" : String → Option String)) ∈
        [("m", (fun _ => some "1" : String → Option String))]) ∧
    (∃ row ∈ (compute_combined_field_confidences (fun _ _ => 0) (fun _ _ => 0)
        (fun _ => some "1") [("m", fun _ => some "1")] METHOD_WEIGHTS).2,
      row.1 = "m" ∧
      lookup0 row.2 "npi" =
        field_confidence_for_method (fun _ _ => 0) (fun _ _ => 0) "npi" (some "1") (some "1") ∧
      lookup0 (compute_method_score (fun _ _ => 0) (fun _ _ => 0) (fun _ => some "1")
          (fun _ => some "1") FIELD_KEYS).2 "npi" = round2 (lookup0 row.2 "npi")) := by
  have hf : "npi" ∈ FIELD_KEYS := by decide
  have hp : ("m", (fun _ => some "1" : String → Option String)) ∈
      [("m", (fun _ => some "1" : String → Option String))] := by simp
  exact ⟨⟨hf, hp⟩, c9_single_comparator (fun _ _ => 0) (fun _ _ => 0) (fun _ => some "1")
    [("m", fun _ => some "1")] METHOD_WEIGHTS "npi" hf _ hp⟩

/-- The unrounded matrix entry used for the C10 counter-view: comparing phone
`"123"` with `"124"` gives `200/3`, which has no 2-decimal representation. -/
lemma phone_conf_123_124 :
    field_confidence_for_method (fun _ _ => (0 : ℚ)) (fun _ _ => (0 : ℚ)) "phone"
      (some "123") (some "124") = 200 / 3 := by
  have hlcs : lcsLen "123".data "124".data = 2 := by simp +decide [lcsLen]
  have hfr : fuzzRatioVal "123" "124" = 200 / 3 := by
    rw [fuzzRatioVal, if_neg (by decide)]
    rw [hlcs]
    have h3 : "123".length = 3 := by decide
    have h4 : "124".length = 3 := by decide
    rw [h3, h4]
    norm_num
  have hps : phone_similarity (some "123") (some "124") = 200 / 3 := by
    simp only [phone_similarity]
    rw [if_neg (by decide)]
    have hd1 : digitsOf "123" = "123" := by decide
    have hd2 : digitsOf "124" = "124" := by decide
    rw [hd1, hd2, if_neg (by decide), if_neg (by decide)]
    exact hfr
  simp +decide only [field_confidence_for_method, rawFieldSimilarity]
  rw [hps]
  norm_num [min_def, max_def]

lemma not_isCenti_200_div_3 : ¬ isCenti (200 / 3 : ℚ) := by
  rintro ⟨n, hn⟩
  have h1 : (n : ℚ) * 3 = 20000 := by
    field_simp at hn
    linarith
  have h2 : n * 3 = 20000 := by exact_mod_cast h1
  omega

/-- C10: every public numeric output — the method score, each breakdown value,
each combined field confidence, and the overall confidence — is a value with
exactly 2 decimal places (`round(x, 2)` applied before returning); the
per-method per-field diagnostic matrix alone is returned unrounded, witnessed
by a matrix entry equal to `200/3`, which has no 2-decimal representation. -/
theorem c10_two_decimal_outputs (tset tsort : String → String → ℚ)
    (extracted mres : String → Option String) (fields : List String)
    (mrs : List (String × (String → Option String))) (mw fw : String → ℚ)
    (l : List (String × ℚ)) :
    isCenti (compute_method_score tset tsort extracted mres fields).1 ∧
    (∀ p ∈ (compute_method_score tset tsort extracted mres fields).2, isCenti p.2) ∧
    (∀ p ∈ (compute_combined_field_confidences tset tsort extracted mrs mw).1, isCenti p.2) ∧
    isCenti (compute_overall_confidence l fw) ∧
    (∃ q ∈ (compute_combined_field_confidences (fun _ _ => 0) (fun _ _ => 0)
        (fun g => if g = "phone" then some "123" else none)
        [("m", fun g => if g = "phone" then some "124" else none)] METHOD_WEIGHTS).2,
      ∃ r ∈ q.2, r.1 = "phone" ∧ r.2 = 200 / 3 ∧ ¬ isCenti r.2) := by
  refine ⟨isCenti_round2 _, ?_, ?_, isCenti_round2 _, ?_⟩
  · intro p hp
    simp only [compute_method_score, List.mem_map] at hp
    obtain ⟨f, _, rfl⟩ := hp
    exact isCenti_round2 _
  · intro p hp
    simp only [compute_combined_field_confidences, List.mem_map] at hp
    obtain ⟨f, _, rfl⟩ := hp
    exact isCenti_round2 _
  · refine ⟨("m", FIELD_KEYS.map fun f' =>
        (f', field_confidence_for_method (fun _ _ => 0) (fun _ _ => 0) f'
          ((fun g => if g = "phone" then some "123" else none) f')
          ((fun g => if g = "phone" then some "124" else none) f'))), ?_,
      ("phone", field_confidence_for_method (fun _ _ => 0) (fun _ _ => 0) "phone"
        ((fun g => if g = "phone" then some "123" else none) "phone")
        ((fun g => if g = "phone" then some "124" else none) "phone")), ?_, rfl, ?_, ?_⟩
    · simp only [compute_combined_field_confidences, List.mem_map, List.mem_singleton]
      exact ⟨("m", fun g => if g = "phone" then some "124" else none), rfl, rfl⟩
    · exact List.mem_map.mpr ⟨"phone", by decide, rfl⟩
    · simpa using phone_conf_123_124
    · have h : field_confidence_for_method (fun _ _ => (0:ℚ)) (fun _ _ => (0:ℚ)) "phone"
          ((fun g => if g = "phone" then some "123" else none) "phone")
          ((fun g => if g = "phone" then some "124" else none) "phone") = 200 / 3 := by
        simpa using phone_conf_123_124
      rw [h]
      exact not_isCenti_200_div_3

theorem c10_two_decimal_outputs_witness :
    (("npi", round2 (field_confidence_for_method (fun _ _ => (0:ℚ)) (fun _ _ => 0) "npi"
        none none)) ∈
      (compute_method_score (fun _ _ => 0) (fun _ _ => 0) (fun _ => none) (fun _ => none)
        FIELD_KEYS).2) ∧
    isCenti (compute_method_score (fun _ _ => 0) (fun _ _ => 0) (fun _ => none)
      (fun _ => none) FIELD_KEYS).1 ∧
    isCenti (round2 (field_confidence_for_method (fun _ _ => (0:ℚ)) (fun _ _ => 0) "npi"
      none none)) := by
  have hm : ("npi", round2 (field_confidence_for_method (fun _ _ => (0:ℚ)) (fun _ _ => 0)
      "npi" none none)) ∈
      (compute_method_score (fun _ _ => 0) (fun _ _ => 0) (fun _ => none) (fun _ => none)
        FIELD_KEYS).2 := by
    simp only [compute_method_score, FIELD_KEYS, List.map_cons, List.map_nil]
    simp
  have h := c10_two_decimal_outputs (fun _ _ => 0) (fun _ _ => 0) (fun _ => none)
    (fun _ => none) FIELD_KEYS [] METHOD_WEIGHTS FIELD_WEIGHTS []
  exact ⟨hm, h.1, h.2.1 _ hm⟩

lemma map_congr_fn {α β : Type} (l : List α) (f g : α → β) (h : ∀ a ∈ l, f a = g a) :
    l.map f = l.map g := by
  induction l with
  | nil => rfl
  | cons a t ih =>
    simp only [List.map_cons]
    rw [h a (by simp), ih fun x hx => h x (by simp [hx])]

/-- Closed form of the combined list: for each tracked field, the weighted
average runs over ALL supplied methods — the denominator is the total weight
of every method in `method_results`, whether or not it reported the field. -/
lemma combined_eq_formula (tset tsort : String → String → ℚ)
    (extracted : String → Option String)
    (mrs : List (String × (String → Option String))) (mw : String → ℚ) :
    (compute_combined_field_confidences tset tsort extracted mrs mw).1 =
      FIELD_KEYS.map fun f =>
        (f, round2 (if (mrs.map fun p => mw p.1).sum ≠ 0 then
          (mrs.map fun p =>
            field_confidence_for_method tset tsort f (extracted f) (p.2 f) * mw p.1).sum /
            (mrs.map fun p => mw p.1).sum
        else 0)) := by
  simp only [compute_combined_field_confidences, List.map_map, Function.comp_def]
  apply map_congr_fn
  intro f hf
  have hnum : mrs.map (fun p => lookup0 (FIELD_KEYS.map fun f'' =>
        (f'', field_confidence_for_method tset tsort f'' (extracted f'') (p.2 f''))) f *
          mw p.1) =
      mrs.map fun p =>
        field_confidence_for_method tset tsort f (extracted f) (p.2 f) * mw p.1 :=
    map_congr_fn _ _ _ fun p _ => by
      rw [lookup0_map_self
        (fun f'' => field_confidence_for_method tset tsort f'' (extracted f'') (p.2 f''))
        f FIELD_KEYS hf]
  rw [hnum]

/-- Looking up one tracked field in the combined result. -/
lemma combined_lookup0 (tset tsort : String → String → ℚ)
    (extracted : String → Option String)
    (mrs : List (String × (String → Option String))) (mw : String → ℚ)
    (f : String) (hf : f ∈ FIELD_KEYS) :
    lookup0 (compute_combined_field_confidences tset tsort extracted mrs mw).1 f =
      round2 (if (mrs.map fun p => mw p.1).sum ≠ 0 then
        (mrs.map fun p =>
          field_confidence_for_method tset tsort f (extracted f) (p.2 f) * mw p.1).sum /
          (mrs.map fun p => mw p.1).sum
      else 0) := by
  rw [combined_eq_formula]
  exact lookup0_map_self
    (fun f => round2 (if (mrs.map fun p => mw p.1).sum ≠ 0 then
      (mrs.map fun p =>
        field_confidence_for_method tset tsort f (extracted f) (p.2 f) * mw p.1).sum /
        (mrs.map fun p => mw p.1).sum
    else 0)) f FIELD_KEYS hf

/-- C1 counterexample: claimed specialty "pediatrics", two methods report the
same specialty, one method (`google_maps`) reports null.  The code's combined
specialty confidence is 75 — the silent method's weight stays in the
denominator and it contributes 0 — while the spec's exclusion rule (modelled
by `combinedFieldConfidencesSpec`) gives 100. -/
theorem c1_counterexample :
    lookup0 (compute_combined_field_confidences (fun _ _ => 0) (fun _ _ => 0)
      (fun f => if f = "specialty" then some "pediatrics" else none)
      [("npi_registry", fun f => if f = "specialty" then some "pediatrics" else none),
        ("web_scrape", fun f => if f = "specialty" then some "pediatrics" else none),
        ("google_maps", fun _ => none)] METHOD_WEIGHTS).1 "specialty" = 75 ∧
    lookup0 (combinedFieldConfidencesSpec (fun _ _ => 0) (fun _ _ => 0)
      (fun f => if f = "specialty" then some "pediatrics" else none)
      [("npi_registry", fun f => if f = "specialty" then some "pediatrics" else none),
        ("web_scrape", fun f => if f = "specialty" then some "pediatrics" else none),
        ("google_maps", fun _ => none)] METHOD_WEIGHTS) "specialty" = 100 ∧
    (75 : ℚ) ≠ 100 := by
  have hc : field_confidence_for_method (fun _ _ => (0:ℚ)) (fun _ _ => 0) "specialty"
      (some "pediatrics") (some "pediatrics") = 100 := by
    simp +decide only [field_confidence_for_method, rawFieldSimilarity, specialty_similarity]
  have hc0 : field_confidence_for_method (fun _ _ => (0:ℚ)) (fun _ _ => 0) "specialty"
      (some "pediatrics") none = 0 :=
    field_confidence_blank_right _ _ _ _ _ rfl
  have w1 : METHOD_WEIGHTS "npi_registry" = 45 / 100 := by simp [METHOD_WEIGHTS]
  have w2 : METHOD_WEIGHTS "web_scrape" = 30 / 100 := by simp [METHOD_WEIGHTS]
  have w3 : METHOD_WEIGHTS "google_maps" = 25 / 100 := by simp [METHOD_WEIGHTS]
  refine ⟨?_, ?_, by norm_num⟩
  · rw [combined_lookup0 _ _ _ _ _ "specialty" (by decide)]
    simp [hc, hc0, w1, w2, w3]
    norm_num [round2, roundHalfEven]
  · simp only [combinedFieldConfidencesSpec]
    rw [lookup0_map_self _ "specialty" FIELD_KEYS (by decide)]
    simp [hc, w1, w2, isBlank]
    norm_num [round2, roundHalfEven]

/-- C1 amended: a method present in `methodResults` that reports null for a
field is NOT excluded: its weight still enters that field's denominator while
it contributes 0 to the numerator, so a silent method does pull the combined
field confidence down. -/
theorem c1_silent_method_counts_in_denominator (tset tsort : String → String → ℚ)
    (extracted : String → Option String)
    (others : List (String × (String → Option String))) (m : String)
    (res : String → Option String) (mw : String → ℚ) (f : String)
    (hf : f ∈ FIELD_KEYS) (hblank : isBlank (res f) = true) :
    lookup0 (compute_combined_field_confidences tset tsort extracted
        (others ++ [(m, res)]) mw).1 f =
      round2 (if (others.map fun p => mw p.1).sum + mw m ≠ 0 then
        (others.map fun p =>
          field_confidence_for_method tset tsort f (extracted f) (p.2 f) * mw p.1).sum /
          ((others.map fun p => mw p.1).sum + mw m)
      else 0) := by
  rw [combined_lookup0 _ _ _ _ _ f hf]
  simp only [List.map_append, List.sum_append, List.map_cons, List.map_nil,
    List.sum_cons, List.sum_nil, add_zero]
  rw [field_confidence_blank_right _ _ _ _ _ hblank, zero_mul, add_zero]

theorem c1_silent_method_counts_in_denominator_witness :
    ("npi" ∈ FIELD_KEYS ∧ isBlank ((fun _ => none : String → Option String) "npi") = true) ∧
    lookup0 (compute_combined_field_confidences (fun _ _ => 0) (fun _ _ => 0)
        (fun _ => some "1") ([] ++ [("m", fun _ => none)]) (fun _ => 1)).1 "npi" =
      round2 (if (([] : List (String × (String → Option String))).map
            fun p => (fun _ => (1:ℚ)) p.1).sum + 1 ≠ 0 then
        (([] : List (String × (String → Option String))).map fun p =>
          field_confidence_for_method (fun _ _ => 0) (fun _ _ => 0) "npi" (some "1") (p.2 "npi") *
            (fun _ => (1:ℚ)) p.1).sum /
          ((([] : List (String × (String → Option String))).map
            fun p => (fun _ => (1:ℚ)) p.1).sum + 1)
      else 0) := by
  refine ⟨⟨by decide, rfl⟩, ?_⟩
  exact c1_silent_method_counts_in_denominator (fun _ _ => 0) (fun _ _ => 0)
    (fun _ => some "1") [] "m" (fun _ => none) (fun _ => 1) "npi" (by decide) rfl

/-- C8 counterexample: a weight table with a negative weight is not rejected —
scoring proceeds to completion and the negative weight flows straight into the
weighted average, here producing a combined npi confidence of 200, outside
`[0,100]`. -/
theorem c8_counterexample :
    lookup0 (compute_combined_field_confidences (fun _ _ => 0) (fun _ _ => 0)
      (fun f => if f = "npi" then some "17" else none)
      [("m1", fun f => if f = "npi" then some "17" else none), ("m2", fun _ => none)]
      (fun m => if m = "m1" then 1 else -(1 / 2))).1 "npi" = 200 ∧
    (100 : ℚ) < 200 := by
  have hc : field_confidence_for_method (fun _ _ => (0:ℚ)) (fun _ _ => 0) "npi"
      (some "17") (some "17") = 100 := by
    simp +decide only [field_confidence_for_method, rawFieldSimilarity, npi_similarity]
  have hc0 : field_confidence_for_method (fun _ _ => (0:ℚ)) (fun _ _ => 0) "npi"
      (some "17") none = 0 :=
    field_confidence_blank_right _ _ _ _ _ rfl
  refine ⟨?_, by norm_num⟩
  rw [combined_lookup0 _ _ _ _ _ "npi" (by decide)]
  simp [hc, hc0]
  norm_num [round2, roundHalfEven]

/-- C8 amended: no weight-table validation exists: every weight table —
negative weights included — is accepted, and scoring always runs to
completion, producing one combined entry per tracked field; the only guard is
that a zero weight-sum denominator yields 0 instead of a division fault. -/
theorem c8_no_validation_total_scoring (tset tsort : String → String → ℚ)
    (extracted : String → Option String)
    (mrs : List (String × (String → Option String))) (mw : String → ℚ) :
    ((compute_combined_field_confidences tset tsort extracted mrs mw).1.map Prod.fst =
      FIELD_KEYS) ∧
    ((mrs.map fun p => mw p.1).sum = 0 →
      ∀ p ∈ (compute_combined_field_confidences tset tsort extracted mrs mw).1, p.2 = 0) := by
  constructor
  · rw [combined_eq_formula]
    simp [List.map_map, Function.comp_def]
  · intro h0 p hp
    rw [combined_eq_formula] at hp
    simp only [List.mem_map] at hp
    obtain ⟨f, _, rfl⟩ := hp
    simp only [h0]
    rw [if_neg (by simp), round2_zero]

theorem c8_no_validation_total_scoring_witness :
    (([("m", (fun _ => none : String → Option String))].map
      fun p => (fun _ => (0:ℚ)) p.1).sum = 0) ∧
    (∀ p ∈ (compute_combined_field_confidences (fun _ _ => 0) (fun _ _ => 0) (fun _ => none)
        [("m", fun _ => none)] (fun _ => 0)).1, p.2 = 0) := by
  have h0 : ([("m", (fun _ => none : String → Option String))].map
      fun p => (fun _ => (0:ℚ)) p.1).sum = 0 := by simp
  exact ⟨h0, (c8_no_validation_total_scoring (fun _ _ => 0) (fun _ _ => 0) (fun _ => none)
    [("m", fun _ => none)] (fun _ => 0)).2 h0⟩

end ValidateMD
